import Mathlib

/-!
Verification of the interpolation-engine repository against its
natural-language specification.

The Lean definitions below are a shallow embedding of the Python sources
`filter.py` and `interpolation_engine.py`:

* strings are `List Char`; Python `str.replace`, `str.count`, `str.find`,
  `str.rfind`, slices and negative indexing are embedded as executable
  list functions with Python's left-to-right, non-overlapping semantics;
* the runtime value kinds (string, integer, list, mapping) become the
  inductive `Value`; the inserts map becomes an association list;
* fallible code returns `Except IErr`, with `IErr.interp` standing for
  `InterpolationException` (catchable by `goto_map` / `replace_map`),
  `IErr.fatal` for assertion failures and other uncaught Python
  exceptions, and `IErr.timeout` for fuel exhaustion of loops that the
  Python source runs without any termination guarantee;
* the wall clock consulted by the special keys `HH:MM` / `HH:MM:SS` is
  threaded through an `Env` record, and Python's builtin `eval` (used by
  the arithmetic evaluator on its final digits-and-operators string) is a
  function parameter `pyEval`, since both are environment behaviour, not
  code of the repository.  The inserts fallback directory is modelled in
  its default configuration `inserts_dir = None`.
-/

set_option maxRecDepth 8000

namespace InterpEngine

/-! ## Runtime values (`interpolation_engine.py` data model) -/

/-- The value kinds an insert can hold: string, integer, list or mapping
(spec §3.2, "Dynamic values" in §9). -/
inductive Value where
  | str (s : List Char) : Value
  | int (n : Int) : Value
  | list (l : List Value) : Value
  | dict (l : List (Value × Value)) : Value

/-- Error kinds of the embedding: `interp` is `InterpolationException`,
`fatal` covers assertion errors and other uncaught exceptions, `timeout`
is fuel exhaustion of a source loop with no termination guarantee. -/
inductive IErr where
  | interp : IErr
  | fatal : IErr
  | timeout : IErr
deriving DecidableEq, Repr

mutual

def valueBeq : Value → Value → Bool
  | .str a, .str b => a == b
  | .int a, .int b => a == b
  | .list a, .list b => valueListBeq a b
  | .dict a, .dict b => valuePairsBeq a b
  | _, _ => false

def valueListBeq : List Value → List Value → Bool
  | [], [] => true
  | a :: as, b :: bs => valueBeq a b && valueListBeq as bs
  | _, _ => false

def valuePairsBeq : List (Value × Value) → List (Value × Value) → Bool
  | [], [] => true
  | (a1, a2) :: as, (b1, b2) :: bs => valueBeq a1 b1 && valueBeq a2 b2 && valuePairsBeq as bs
  | _, _ => false

end

mutual

theorem valueBeq_eq : ∀ a b : Value, valueBeq a b = true ↔ a = b
  | .str a, .str b => by simp [valueBeq]
  | .int a, .int b => by simp [valueBeq]
  | .list a, .list b => by
      simp only [valueBeq]
      rw [valueListBeq_eq]
      constructor
      · intro h; rw [h]
      · intro h; injection h
  | .dict a, .dict b => by
      simp only [valueBeq]
      rw [valuePairsBeq_eq]
      constructor
      · intro h; rw [h]
      · intro h; injection h
  | .str _, .int _ => by simp [valueBeq]
  | .str _, .list _ => by simp [valueBeq]
  | .str _, .dict _ => by simp [valueBeq]
  | .int _, .str _ => by simp [valueBeq]
  | .int _, .list _ => by simp [valueBeq]
  | .int _, .dict _ => by simp [valueBeq]
  | .list _, .str _ => by simp [valueBeq]
  | .list _, .int _ => by simp [valueBeq]
  | .list _, .dict _ => by simp [valueBeq]
  | .dict _, .str _ => by simp [valueBeq]
  | .dict _, .int _ => by simp [valueBeq]
  | .dict _, .list _ => by simp [valueBeq]

theorem valueListBeq_eq : ∀ a b : List Value, valueListBeq a b = true ↔ a = b
  | [], [] => by simp [valueListBeq]
  | a :: as, b :: bs => by
      simp only [valueListBeq, Bool.and_eq_true]
      rw [valueBeq_eq, valueListBeq_eq]
      constructor
      · rintro ⟨h1, h2⟩; rw [h1, h2]
      · intro h; injection h with h1 h2; exact ⟨h1, h2⟩
  | [], _ :: _ => by simp [valueListBeq]
  | _ :: _, [] => by simp [valueListBeq]

theorem valuePairsBeq_eq : ∀ a b : List (Value × Value), valuePairsBeq a b = true ↔ a = b
  | [], [] => by simp [valuePairsBeq]
  | (a1, a2) :: as, (b1, b2) :: bs => by
      simp only [valuePairsBeq, Bool.and_eq_true]
      rw [valueBeq_eq, valueBeq_eq, valuePairsBeq_eq]
      constructor
      · rintro ⟨⟨h1, h2⟩, h3⟩; rw [h1, h2, h3]
      · intro h; injection h with h1 h2; injection h1 with h1a h1b; exact ⟨⟨h1a, h1b⟩, h2⟩
  | [], _ :: _ => by simp [valuePairsBeq]
  | _ :: _, [] => by simp [valuePairsBeq]

end

instance : DecidableEq Value := fun a b =>
  decidable_of_iff (valueBeq a b = true) (valueBeq_eq a b)

deriving instance DecidableEq for Except

/-! ## Python string primitives used by the sources -/

/-- Recursion core of `replaceAll`, structurally recursive on a fuel
that dominates the scanned string's length (every step consumes at least
one character, so the out-of-fuel branch is unreachable from
`replaceAll`). -/
def replaceAllGo (pat rep : List Char) : Nat → List Char → List Char
  | _, [] => []
  | 0, s => s
  | fuel + 1, c :: t =>
    if pat ≠ [] ∧ pat.isPrefixOf (c :: t) then
      rep ++ replaceAllGo pat rep fuel ((c :: t).drop pat.length)
    else c :: replaceAllGo pat rep fuel t

/-- Python `str.replace(pat, rep)`: left-to-right, non-overlapping
replacement of every occurrence.  The sources never call it with an empty
pattern, so the empty pattern is treated as a no-op. -/
def replaceAll (pat rep s : List Char) : List Char :=
  replaceAllGo pat rep s.length s

/-- Recursion core of `countSub`, fuelled like `replaceAllGo`. -/
def countSubGo (pat : List Char) : Nat → List Char → Nat
  | _, [] => 0
  | 0, _ => 0
  | fuel + 1, c :: t =>
    if pat ≠ [] ∧ pat.isPrefixOf (c :: t) then
      1 + countSubGo pat fuel ((c :: t).drop pat.length)
    else countSubGo pat fuel t

/-- Python `str.count(pat)`: number of non-overlapping occurrences,
counted left to right (nonempty patterns, as in the sources). -/
def countSub (pat s : List Char) : Nat :=
  countSubGo pat s.length s

/-- Python `s.find(ch, start)` for a single-character needle: first index
at or after `start`, `none` for Python's `-1`. -/
def findCharFrom (ch : Char) (s : List Char) (start : Nat) : Option Nat :=
  match (s.drop start).findIdx? (· = ch) with
  | some j => some (start + j)
  | none => none

/-- Python `s.rfind(ch)` for a single-character needle: last index,
`none` for Python's `-1`. -/
def rfindChar (ch : Char) (s : List Char) : Option Nat :=
  match s.reverse.findIdx? (· = ch) with
  | some j => some (s.length - 1 - j)
  | none => none

/-- Is `pat` a (contiguous) substring of `s`?  Mirrors the scan order of
`replaceAll`. -/
def containsSub (pat : List Char) : List Char → Bool
  | [] => false
  | c :: t => pat.isPrefixOf (c :: t) || containsSub pat t

/-! ## Interpolation constants (`interpolation_engine.py` lines 39–41,
485–486) -/

def insStart : Char := '\x7b'
def insStop : Char := '\x7d'
def escapeCh : Char := '\\'
/-- `replaced_escaped_insert_start = '.„Ä†'` -/
def sentStart : List Char := ['.', '„', 'Ä', '†']
/-- `replaced_escaped_insert_stop = '„Ä†.'` -/
def sentStop : List Char := ['„', 'Ä', '†', '.']
/-- `escape + insert_start`, the two-character escape sequence. -/
def escStart : List Char := [escapeCh, insStart]
/-- `escape + insert_stop`. -/
def escStop : List Char := [escapeCh, insStop]

/-! ## Insert resolver (`get_interpdata`, lines 413–451) -/

/-- The in-memory inserts map (a Python dict with string keys), embedded
as an association list looked up front-to-back. -/
def Inserts := List (List Char × Value)

def lookupIns : List (List Char × Value) → List Char → Option Value
  | [], _ => none
  | (k, v) :: t, key => if k = key then some v else lookupIns t key

/-- Environment facts the insert resolver consults: the wall-clock
strings produced by `datetime.now().strftime` for the two special keys. -/
structure Env where
  clockHM : List Char
  clockHMS : List Char

mutual

/-- Python `repr` of a value, as used by `str` on lists and mappings.
For strings the quote-selection and character-escaping refinements of
CPython's `repr` are simplified to plain single quotes; no claim below
ever stringifies a list or mapping. -/
def pyRepr : Value → List Char
  | .str s => '\'' :: (s ++ ['\''])
  | .int n => (toString n).toList
  | .list l => '[' :: (pyReprList l ++ [']'])
  | .dict l => '\x7b' :: (pyReprPairs l ++ ['\x7d'])

def pyReprList : List Value → List Char
  | [] => []
  | [v] => pyRepr v
  | v :: t => pyRepr v ++ (", ".toList ++ pyReprList t)

def pyReprPairs : List (Value × Value) → List Char
  | [] => []
  | [(k, v)] => pyRepr k ++ (": ".toList ++ pyRepr v)
  | (k, v) :: t => pyRepr k ++ (": ".toList ++ pyRepr v ++ (", ".toList ++ pyReprPairs t))

end

/-- Python `str(value)`. -/
def pyStr : Value → List Char
  | .str s => s
  | v => pyRepr v

/-- `get_interpdata(inserts, insertkey)` with the inserts directory in
its default configuration (`inserts_dir = None`, so the filesystem
fallback of lines 435–444 is skipped).  Special keys `HH:MM`, `HH:MM:SS`
read the clock from `env`; `ARG<digits>` raises an interpolation fault
when absent; the empty key and unknown keys raise interpolation
faults. -/
def getInterpdata (env : Env) (ins : List (List Char × Value)) (k : List Char) :
    Except IErr Value :=
  if k = "HH:MM".toList then .ok (.str env.clockHM)
  else if k = "HH:MM:SS".toList then .ok (.str env.clockHMS)
  else if "ARG".toList.isPrefixOf k ∧ k.drop 3 ≠ [] ∧ (k.drop 3).all (·.isDigit) then
    match lookupIns ins k with
    | some v => .ok v
    | none => .error .interp
  else if k = [] then .error .interp
  else
    match lookupIns ins k with
    | some v => .ok v
    | none => .error .interp

/-- `get_interpdata` applied to the result of a recursive interpolation,
which may be a non-string value; a non-string key is never a member of
the string-keyed inserts dict and falls through to the interpolation
fault of the final `case`. -/
def getInterpdataV (env : Env) (ins : List (List Char × Value)) : Value → Except IErr Value
  | .str s => getInterpdata env ins s
  | _ => .error .interp

/-! ## Simple-key detection (`get_simple_insertkey`, lines 460–478) -/

/-- The depth-scanning loop of `get_simple_insertkey`: `none` models the
early `return None`, `some ()` falling through the loop.  `n` is
`len(content)`, `i` the enumeration index, `depth` the running nesting
depth (a Python int, possibly negative). -/
def simpleKeyAux (n : Nat) : List Char → Nat → Int → Option Unit
  | [], _, _ => some ()
  | c :: rest, i, depth =>
    let depth1 := if c = insStop then depth - 1 else depth
    if (depth1 = 0) ≠ (i = 0 ∨ i = n - 1) then none
    else
      let depth2 := if c = insStart then depth1 + 1 else depth1
      simpleKeyAux n rest (i + 1) depth2

/-- `get_simple_insertkey(content)` for string content; on fall-through
it returns `content[1:-1]` (the slice by the delimiter lengths). -/
def getSimpleInsertkey (content : List Char) : Option (List Char) :=
  match simpleKeyAux content.length content 0 0 with
  | none => none
  | some () => some ((content.drop 1).dropLast)

/-- Python truthiness of the walrus tests
`if (insertkey := get_simple_insertkey(...)):` — both `None` and the
empty string are falsy. -/
def simpleTruthy (o : Option (List Char)) : Option (List Char) :=
  match o with
  | some k => if k = [] then none else some k
  | none => none

/-! ## The interpolation engine (`interpolate_inserts`, lines 480–524) -/

/-- The `while content.find(insert_start) != -1` loop of
`interpolate_inserts` (lines 499–518), fuelled because the source loop
has no termination guarantee (a substituted value may itself contain the
delimiter).  Each pass checks the balance assertion, finds the innermost
`{…}` by last-`{` / first-`}`-after, restores escape sentinels inside
the key, resolves it, asserts the value kind, splices its string form
and re-hides escaped delimiters. -/
def interpLoop (env : Env) (ins : List (List Char × Value)) :
    Nat → List Char → Except IErr (List Char)
  | 0, _ => .error .timeout
  | fuel + 1, content =>
    if ¬ content.contains insStart then .ok content
    else
      let nStarts : Int := (countSub [insStart] content : Int) - (countSub escStart content : Int)
      let nStops : Int := (countSub [insStop] content : Int) - (countSub escStop content : Int)
      if nStarts ≠ nStops then .error .fatal
      else
        match rfindChar insStart content with
        | none => .ok content
        | some outerFrom =>
          match findCharFrom insStop content (outerFrom + 1) with
          | none => .ok content
          | some innerTo =>
            let innerFrom := outerFrom + 1
            let outerTo := innerTo + 1
            let key := replaceAll sentStop escStop (replaceAll sentStart escStart
              ((content.drop innerFrom).take (innerTo - innerFrom)))
            match getInterpdata env ins key with
            | .error e => .error e
            | .ok v =>
              match v with
              | .dict _ => .error .fatal
              | v =>
                let content1 := content.take outerFrom ++ pyStr v ++ content.drop outerTo
                let content2 := replaceAll escStop sentStop (replaceAll escStart sentStart content1)
                interpLoop env ins fuel content2

/-- `interpolate_inserts(inserts, content)`: hide escaped delimiters
behind the sentinel tokens, take the simple-key fast path (recursing on
the inner key and returning the raw resolved value) when the whole
string is one balanced placeholder, otherwise run the innermost-first
substitution loop and finally restore the sentinels to escaped form.
The fuel bounds the recursion of the simple-key path and the
substitution loop, neither of which terminates on all inputs in the
source. -/
def interpolateInserts (env : Env) (ins : List (List Char × Value)) :
    Nat → List Char → Except IErr Value
  | 0, _ => .error .timeout
  | fuel + 1, content =>
    let content1 := replaceAll escStop sentStop (replaceAll escStart sentStart content)
    match simpleTruthy (getSimpleInsertkey content1) with
    | some insertkey =>
      match simpleTruthy (getSimpleInsertkey insertkey) with
      | some subKey =>
        match interpolateInserts env ins fuel (insStart :: (subKey ++ [insStop])) with
        | .error e => .error e
        | .ok v => getInterpdataV env ins v
      | none =>
        match interpolateInserts env ins fuel insertkey with
        | .error e => .error e
        | .ok v => getInterpdataV env ins v
    | none =>
      match interpLoop env ins (fuel + 1) content1 with
      | .error e => .error e
      | .ok r => .ok (.str (replaceAll sentStop escStop (replaceAll sentStart escStart r)))

/-! ## Escaping helpers (`recursive_escape` / `recursive_unescape`,
lines 1289–1313) -/

/-- The string case of `recursive_escape`: prefix every interpolation
delimiter with the escape character, `{` first and then `}` (two
successive `str.replace` calls). -/
def escapeStr (s : List Char) : List Char :=
  replaceAll [insStop] escStop (replaceAll [insStart] escStart s)

mutual

/-- `recursive_escape(x)`: escape delimiters in every string reachable
inside a value. -/
def recursiveEscape : Value → Value
  | .str s => .str (escapeStr s)
  | .int n => .int n
  | .list l => .list (recursiveEscapeList l)
  | .dict l => .dict (recursiveEscapePairs l)

def recursiveEscapeList : List Value → List Value
  | [] => []
  | v :: t => recursiveEscape v :: recursiveEscapeList t

def recursiveEscapePairs : List (Value × Value) → List (Value × Value)
  | [] => []
  | (k, v) :: t => (recursiveEscape k, recursiveEscape v) :: recursiveEscapePairs t

end

/-! ## Stream filter (`filter.py`, forward filter `filter`, lines 2–54) -/

/-- The closure state of the forward filter: the `mode_is_shown` toggle,
the residual `buffer`, the append-only `outputs` list, plus the
concatenation `emitted` of all strings the successive `update` calls
returned (enumeration headers included). -/
structure FState where
  shown : Bool
  buffer : List Char
  outputs : List (List Char)
  emitted : List Char
deriving DecidableEq, Repr

/-- `outputs[-1] += delta`.  The source would raise `IndexError` on an
empty list; that state is unreachable from the constructor's initial
state (the list gains an entry on every toggle to shown), and the
embedding leaves an empty list unchanged. -/
def appendLast (o : List (List Char)) (d : List Char) : List (List Char) :=
  match o with
  | [] => []
  | [x] => [x ++ d]
  | x :: t => x :: appendLast t d

/-- The `for safebelow in range(len(buffer))` scan (lines 30–34): the
smallest index whose window `buffer[i:i+len(next)]` is a prefix of
`next`, or `len(buffer)` when no index qualifies (the `for`–`else`
branch; with an empty `next` the condition never holds). -/
def safeBelow (next : List Char) : List Char → Nat
  | [] => 0
  | c :: t =>
    if next ≠ [] ∧ (((c :: t).take next.length).isPrefixOf next) then 0
    else safeBelow next t + 1

def natDigits (n : Nat) : List Char := (toString n).toList

/-- One call of the inner `update(chunk)` function of `filter` (lines
11–42): append the chunk, toggle at most once when the buffer starts
with the awaited delimiter (appending a fresh `outputs` entry and, with
enumeration, the `"\n\n"`/`"<n>. "` header when toggling to shown), then
emit or discard the prefix the `safebelow` scan declares safe.  Note
that the source computes `next_str` once, **before** the toggle, so the
scan after a toggle still uses the delimiter that was just consumed. -/
def filterUpdate (startS stopS : List Char) (enum : Bool) (s : FState)
    (chunk : List Char) : FState :=
  let buf := s.buffer ++ chunk
  let next := if s.shown then stopS else startS
  let toggled := next.isPrefixOf buf ∧ next ≠ []
  let shown1 := if toggled then !s.shown else s.shown
  let buf1 := if toggled then buf.drop next.length else buf
  let outputs1 := if toggled ∧ shown1 = true then s.outputs ++ [[]] else s.outputs
  let hdr := if toggled ∧ shown1 = true ∧ enum = true then
      (if outputs1.length > 1 then "\n\n".toList else []) ++ natDigits outputs1.length ++ ". ".toList
    else []
  let k := safeBelow next buf1
  let delta := if shown1 = true then buf1.take k else []
  { shown := shown1, buffer := buf1.drop k,
    outputs := if shown1 = true then appendLast outputs1 delta else outputs1,
    emitted := s.emitted ++ hdr ++ delta }

/-- Feed a sequence of chunks through the forward filter (the filter is
constructed with nonempty delimiters; with an empty delimiter `filter`
returns the `passthrough` variant instead of `update`). -/
def feedChunks (startS stopS : List Char) (enum : Bool) (s : FState)
    (cs : List (List Char)) : FState :=
  cs.foldl (filterUpdate startS stopS enum) s

/-- The state of a freshly constructed filter. -/
def initFState : FState := { shown := false, buffer := [], outputs := [], emitted := [] }

/-- Split a string into successive chunks of `m + 1` characters (the
last one possibly shorter), as the repository's own demo does with
`chunk_width = 3`. -/
def chunksOfSuccGo (m : Nat) : Nat → List Char → List (List Char)
  | _, [] => []
  | 0, s => [s]
  | fuel + 1, c :: t => ((c :: t).take (m + 1)) :: chunksOfSuccGo m fuel (t.drop m)

def chunksOfSucc (m : Nat) (s : List Char) : List (List Char) :=
  chunksOfSuccGo m s.length s

/-! ## Arithmetic evaluator (`math_safe_eval` / `eval_math`, lines
716–816) -/

/-- `math_legal_terminals = set(" .0123456789+-*/%")` (line 716).  Note
that `^` is **not** a member. -/
def mathLegalTerminals : List Char := " .0123456789+-*/%".toList

/-- `word_splitting_chars = set(" ()+-*/^%")` (line 777). -/
def wordSplittingChars : List Char := " ()+-*/^%".toList

/-- Python indexing `s[i]` with negative wrap-around; `none` models
`IndexError`. -/
def pyCharAt (s : List Char) (i : Int) : Option Char :=
  if i ≥ 0 then s.get? i.toNat
  else if 0 ≤ (s.length : Int) + i then s.get? ((s.length : Int) + i).toNat
  else none

/-- Python `round`: round half to even (banker's rounding), on the exact
rational model of the number. -/
def pyRound (q : Rat) : Int :=
  let f := ⌊q⌋
  let frac := q - f
  if frac < 1/2 then f
  else if frac > 1/2 then f + 1
  else if Even f then f else f + 1

/-- `math_safe_eval(s)`: assert that every character is a legal terminal
— which rules out `^` **before** the `^ → **` rewrite ever runs — then
hand the rewritten string to Python's `eval`, modelled by the oracle
`pyEval`. -/
def mathSafeEval (pyEval : List Char → Except IErr Rat) (s : List Char) :
    Except IErr Rat :=
  if ¬ s.all (· ∈ mathLegalTerminals) then .error .fatal
  else pyEval (replaceAll ['^'] "**".toList s)

/-- `str.split()` on whitespace runs, dropping empties. -/
def splitWsAux : List Char → List Char → List (List Char)
  | [], acc => if acc = [] then [] else [acc.reverse]
  | c :: t, acc =>
    if c.isWhitespace then
      (if acc = [] then splitWsAux t [] else acc.reverse :: splitWsAux t [])
    else splitWsAux t (c :: acc)

def splitWs (s : List Char) : List (List Char) := splitWsAux s []

/-- `math_length(inserts, inner)`: length of the list bound to `inner`;
anything but a list fails the assertion. -/
def mathLength (env : Env) (ins : List (List Char × Value)) (inner : List Char) :
    Except IErr Rat := do
  let v ← getInterpdata env ins inner
  match v with
  | .list l => pure (l.length : Rat)
  | _ => .error .fatal

/-- Minimum of the integer members of a list value; Python's `min` over
a mixed-type or empty list raises, which the embedding folds into the
fatal error (the claims never reach a non-integer list here). -/
def intListMin : List Value → Except IErr Rat
  | [] => .error .fatal
  | [.int n] => pure (n : Rat)
  | .int n :: t => do
      let m ← intListMin t
      pure (min (n : Rat) m)
  | _ => .error .fatal

def intListMax : List Value → Except IErr Rat
  | [] => .error .fatal
  | [.int n] => pure (n : Rat)
  | .int n :: t => do
      let m ← intListMax t
      pure (max (n : Rat) m)
  | _ => .error .fatal

def ratListMin : List Rat → Except IErr Rat
  | [] => .error .fatal
  | [r] => pure r
  | r :: t => do
      let m ← ratListMin t
      pure (min r m)

def ratListMax : List Rat → Except IErr Rat
  | [] => .error .fatal
  | [r] => pure r
  | r :: t => do
      let m ← ratListMax t
      pure (max r m)

/-- `math_min(inserts, inner)`: a comma-enumeration of safe
sub-expressions when the characters allow it, otherwise the minimum of
the list bound to `inner`. -/
def mathMin (pyEval : List Char → Except IErr Rat) (env : Env)
    (ins : List (List Char × Value)) (inner : List Char) : Except IErr Rat :=
  if inner.all (fun c => c ∈ mathLegalTerminals ∨ c = ',') then do
    let parts ← (inner.splitOn ',').mapM (mathSafeEval pyEval)
    ratListMin parts
  else do
    let v ← getInterpdata env ins inner
    match v with
    | .list l => intListMin l
    | _ => .error .fatal

def mathMax (pyEval : List Char → Except IErr Rat) (env : Env)
    (ins : List (List Char × Value)) (inner : List Char) : Except IErr Rat :=
  if inner.all (fun c => c ∈ mathLegalTerminals ∨ c = ',') then do
    let parts ← (inner.splitOn ',').mapM (mathSafeEval pyEval)
    ratListMax parts
  else do
    let v ← getInterpdata env ins inner
    match v with
    | .list l => intListMax l
    | _ => .error .fatal

/-- `math_round`. -/
def mathRoundFn (pyEval : List Char → Except IErr Rat) (inner : List Char) :
    Except IErr Rat := do
  let r ← mathSafeEval pyEval inner
  pure ((pyRound r : Int) : Rat)

/-- `math_sign`. -/
def mathSignFn (pyEval : List Char → Except IErr Rat) (inner : List Char) :
    Except IErr Rat := do
  let r ← mathSafeEval pyEval inner
  pure (if r > 0 then 1 else if r < 0 then -1 else 0)

/-- `str(subresult)` for a number: exact for the integers the claims
exercise; a non-integral rational is rendered as `num/den`, which
Python's decimal float rendering only approximates (no claim reaches
this case). -/
def mathNumStr (r : Rat) : List Char :=
  if r.den = 1 then (toString r.num).toList
  else (toString r.num).toList ++ '/' :: (toString (r.den : Int)).toList

/-- The `while math_input.find('(') != -1` loop of `eval_math` (lines
779–801): locate the innermost parentheses via last-`(` /
first-`)`-after, treat them as a pure sub-expression when the character
before `(` is word-splitting (Python indexing: position `-1`, the last
character, when the `(` is first), otherwise dispatch on the word to the
left as a function name, and splice the stringified sub-result back. -/
def mathParenLoop (pyEval : List Char → Except IErr Rat) (env : Env)
    (ins : List (List Char × Value)) : Nat → List Char → Except IErr (List Char)
  | 0, _ => .error .timeout
  | fuel + 1, s =>
    if ¬ s.contains '(' then .ok s
    else
      match rfindChar '(' s with
      | none => .ok s
      | some outerFrom =>
        match findCharFrom ')' s (outerFrom + 1) with
        | none => .ok s
        | some innerTo =>
          let outerTo := innerTo + 1
          let inner := (s.drop (outerFrom + 1)).take (innerTo - (outerFrom + 1))
          match pyCharAt s ((outerFrom : Int) - 1) with
          | none => .error .fatal
          | some prev =>
            if prev ∈ wordSplittingChars then
              match mathSafeEval pyEval inner with
              | .error e => .error e
              | .ok sub =>
                mathParenLoop pyEval env ins fuel
                  (s.take outerFrom ++ mathNumStr sub ++ s.drop outerTo)
            else
              let words := splitWs ((s.take outerFrom).map
                (fun c => if c ∈ wordSplittingChars then ' ' else c))
              match words.getLast? with
              | none => .error .fatal
              | some fname =>
                let outerFrom1 := outerFrom - fname.length
                let subE : Except IErr Rat :=
                  if fname = "length".toList then mathLength env ins inner
                  else if fname = "min".toList then mathMin pyEval env ins inner
                  else if fname = "max".toList then mathMax pyEval env ins inner
                  else if fname = "round".toList then mathRoundFn pyEval inner
                  else if fname = "sign".toList then mathSignFn pyEval inner
                  else .error .fatal
                match subE with
                | .error e => .error e
                | .ok sub =>
                  mathParenLoop pyEval env ins fuel
                    (s.take outerFrom1 ++ mathNumStr sub ++ s.drop outerTo)

/-- `eval_math(inserts, math_input)` (lines 768–816): interpolate the
input, assert balanced parentheses, rewrite away all parentheses, assert
that only legal terminal characters remain — which makes any surviving
`^` fatal — evaluate the remaining operator expression through the
`pyEval` oracle, and require the result to be integral within the
`1e-4` relative tolerance. -/
def evalMath (pyEval : List Char → Except IErr Rat) (env : Env)
    (ins : List (List Char × Value)) (fuel : Nat) (mathInput : List Char) :
    Except IErr Int := do
  let v ← interpolateInserts env ins fuel mathInput
  let s ← match v with
    | .str s => pure s
    | _ => (.error .fatal : Except IErr (List Char))
  if countSub ['('] s ≠ countSub [')'] s then .error .fatal
  else do
    let s1 ← mathParenLoop pyEval env ins fuel s
    if ¬ s1.all (· ∈ mathLegalTerminals) then .error .fatal
    else do
      let r ← pyEval s1
      let ri := pyRound r
      if r ≠ 0 ∧ ¬ (|((ri : Rat) - r) / r| < 1/10000) then .error .fatal
      else pure ri

/-! ## Task-executor cases (`execute_task`, lines 1350–1660) -/

/-- Python `int(str)`: optional surrounding whitespace, optional sign,
nonempty digit run; `none` models `ValueError`. -/
def pyInt? (s : List Char) : Option Int :=
  let t := (s.dropWhile (·.isWhitespace)).reverse.dropWhile (·.isWhitespace) |>.reverse
  match t with
  | '-' :: ds => if ds ≠ [] ∧ ds.all (·.isDigit) then
      some (-(ds.foldl (fun a c => a * 10 + (c.toNat - '0'.toNat)) 0 : Nat)) else none
  | '+' :: ds => if ds ≠ [] ∧ ds.all (·.isDigit) then
      some ((ds.foldl (fun a c => a * 10 + (c.toNat - '0'.toNat)) 0 : Nat)) else none
  | ds => if ds ≠ [] ∧ ds.all (·.isDigit) then
      some ((ds.foldl (fun a c => a * 10 + (c.toNat - '0'.toNat)) 0 : Nat)) else none

/-- Python element access `l[k]` including the negative wrap-around;
`none` models `IndexError`. -/
def pyGetList (l : List Value) (k : Int) : Except IErr Value :=
  if 0 ≤ k then
    match l.get? k.toNat with
    | some v => .ok v
    | none => .error .fatal
  else if 0 ≤ (l.length : Int) + k then
    match l.get? ((l.length : Int) + k).toNat with
    | some v => .ok v
    | none => .error .fatal
  else .error .fatal

/-- The inner `py_index` of the `list_index` case (lines 1379–1386):
strings are passed through `int`, a positive index is shifted to
0-based, a negative index is shifted by the length, and anything else —
including `0` — raises. -/
def listIndexPyIndex (n : Nat) (index : Value) : Except IErr Int := do
  let index1 ← match index with
    | .str s =>
      match pyInt? s with
      | some m => pure (Value.int m)
      | none => (.error .fatal : Except IErr Value)
    | v => pure v
  match index1 with
  | .int i =>
    if i > 0 then pure (i - 1)
    else if i < 0 then pure ((n : Int) + i)
    else .error .fatal
  | _ => .error .fatal

/-- The `list_index` task case (lines 1376–1388): the value that is
bound to `output_name` via `set_interpdata`, or the error raised. -/
def listIndexCase (l : List Value) (index : Value) : Except IErr Value := do
  let k ← listIndexPyIndex l.length index
  pyGetList l k

/-- Python slicing `l[a:b]` (step 1): bounds are clamped, negative
bounds count from the tail, `none` is an omitted bound. -/
def pySlice (l : List Value) (a b : Option Int) : List Value :=
  let norm : Int → Nat := fun k =>
    if k < 0 then ((l.length : Int) + k).toNat else min k.toNat l.length
  let s := match a with | none => 0 | some k => norm k
  let e := match b with | none => l.length | some k => norm k
  (l.take e).drop s

/-- The inner `py_index(index, right)` of the `list_slice` case (lines
1396–1407): as for `list_index`, except that a right bound of `0` maps
to `0` while a left bound of `0` raises; a non-integer falls off the
`elif` chain and yields Python `None` (an open slice bound). -/
def listSlicePyIndex (n : Nat) (index : Value) (right : Bool) :
    Except IErr (Option Int) := do
  let index1 ← match index with
    | .str s =>
      match pyInt? s with
      | some m => pure (Value.int m)
      | none => (.error .fatal : Except IErr Value)
    | v => pure v
  match index1 with
  | .int i =>
    if i > 0 then pure (some (i - 1))
    else if i < 0 then pure (some ((n : Int) + i))
    else if right then pure (some 0)
    else .error .fatal
  | _ => pure none

/-- The `list_slice` task case (lines 1390–1409): string bounds go
through `eval_math` first, then the 1-based inclusive slice
`_list[py_index(from):py_index(to, right) + 1]` is taken (where a
`None` right bound would make Python's `None + 1` raise). -/
def listSliceCase (pyEval : List Char → Except IErr Rat) (env : Env)
    (ins : List (List Char × Value)) (fuel : Nat) (l : List Value)
    (fromIdx toIdx : Value) : Except IErr Value := do
  let fromV ← match fromIdx with
    | .str s => do
        let n ← evalMath pyEval env ins fuel s
        pure (Value.int n)
    | v => pure v
  let toV ← match toIdx with
    | .str s => do
        let n ← evalMath pyEval env ins fuel s
        pure (Value.int n)
    | v => pure v
  let a ← listSlicePyIndex l.length fromV false
  let b ← listSlicePyIndex l.length toV true
  match b with
  | none => .error .fatal
  | some bv => pure (.list (pySlice l a (some (bv + 1))))

/-- The `user_input` case's escaping of what the user typed (lines
1419–1421): `userinput.replace('{', '\\{').replace('}', '\\}')`; the
escaped string is then bound to `output_name`. -/
def userInputEscape (userinput : List Char) : List Char :=
  replaceAll [insStop] escStop (replaceAll [insStart] escStart userinput)

/-! ## Wildcard matcher (`is_wildcard_match`, lines 536–538) -/

/-- Recursion core of the glob matcher, fuelled by the total length of
pattern and subject (each step shrinks one of them). -/
def wildGo : Nat → List Char → List Char → Bool
  | _, [], [] => true
  | _, [], _ :: _ => false
  | 0, _ :: _, _ => false
  | fuel + 1, '*' :: p, s =>
    wildGo fuel p s ||
      (match s with
       | [] => false
       | _ :: t => wildGo fuel ('*' :: p) t)
  | _ + 1, _ :: _, [] => false
  | fuel + 1, c :: p, x :: xs => c = x && wildGo fuel p xs

/-- Glob matching where `*` matches any substring, newlines included
(the source builds `^…$` with `(.*)` under `re.DOTALL`); every other
character is literal (`is_wildcard_match`). -/
def isWildcardMatch (p s : List Char) : Bool :=
  wildGo (p.length + s.length) p s

/-! ## The `goto_map` case (lines 1542–1564) -/

/-- Interpolate every entry's sole key (or sole value) and stringify it,
as the two list comprehensions of lines 1549–1550 do; the first failure
propagates. -/
def interpStrList (env : Env) (ins : List (List Char × Value)) (fuel : Nat) :
    List (List Char) → Except IErr (List (List Char))
  | [] => .ok []
  | k :: t => do
    let v ← interpolateInserts env ins fuel k
    let rest ← interpStrList env ins fuel t
    pure (pyStr v :: rest)

/-- First element of `zip keys values` whose key wildcard-matches
`valueText` (the `matching_targets` comprehension plus `[0]`). -/
def firstWildcardTarget (valueText : List Char) :
    List (List Char × List Char) → Option (List Char)
  | [] => none
  | (k, t) :: rest =>
    if isWildcardMatch k valueText then some t else firstWildcardTarget valueText rest

/-- The `goto_map` task case: try to interpolate `text`, remembering
whether an interpolation fault occurred; interpolate and stringify all
keys and all values; on a fault redirect to the value of the literal
`"NULL"` key (fatal when absent), otherwise to the value of the first
wildcard-matching key (fatal when none matches).  `some label` models
the returned `{goto_target: label}`, `none` the `CONTINUE` fall-through.
-/
def gotoMapCase (env : Env) (ins : List (List Char × Value)) (fuel : Nat)
    (text : List Char) (maps : List (List Char × List Char)) :
    Except IErr (Option (List Char)) := do
  let (interpError, valueText) ← match interpolateInserts env ins fuel text with
    | .ok v => pure (false, pyStr v)
    | .error .interp => pure (true, ([] : List Char))
    | .error e => (.error e : Except IErr (Bool × List Char))
  let keys ← interpStrList env ins fuel (maps.map (·.1))
  let vals ← interpStrList env ins fuel (maps.map (·.2))
  if interpError = true then
    if "NULL".toList ∈ keys then
      let target := vals.getD (keys.indexOf "NULL".toList) []
      if target ≠ "CONTINUE".toList then pure (some target) else pure none
    else .error .fatal
  else
    match firstWildcardTarget valueText (keys.zip vals) with
    | none => .error .fatal
    | some target =>
      if target ≠ "CONTINUE".toList then pure (some target) else pure none


/-! ## Claim-side and fixture definitions -/

/-- An arbitrary concrete clock environment (the scenarios below never
consult the clock keys). -/
def env0 : Env := { clockHM := [], clockHMS := [] }

/-- A concrete stand-in for Python's `eval` used where a closed statement
needs one; the theorems that mention it never reach the oracle. -/
def dummyEval : List Char → Except IErr Rat := fun _ => .error .fatal

/-- The claim's wording of the `user_input` escaping (C10): `s` with
every `{` replaced by `\{` and every `}` replaced by `\}`, character by
character. -/
def userInputEscapeSpec : List Char → List Char
  | [] => []
  | c :: t =>
    (if c = insStart then escStart else if c = insStop then escStop else [c])
      ++ userInputEscapeSpec t

/-- The image of an escaped string after the first sentinel replacement
(`\{ → .„Ä†`): `{` expanded to the start sentinel, `}` still escaped. -/
def midExpand : List Char → List Char
  | [] => []
  | c :: t =>
    (if c = insStart then sentStart else if c = insStop then escStop else [c])
      ++ midExpand t

/-- The image of an escaped string after both sentinel replacements:
each brace of the original string turned into its sentinel token. -/
def expandSent : List Char → List Char
  | [] => []
  | c :: t =>
    (if c = insStart then sentStart else if c = insStop then sentStop else [c])
      ++ expandSent t

/-- The final sentinel-restoring phase of `interpolate_inserts` (lines
520–523). -/
def restoreSent (r : List Char) : List Char :=
  replaceAll sentStop escStop (replaceAll sentStart escStart r)

/-- The image of a string after the first escaping replacement alone
(`{ → \{`). -/
def esc1 : List Char → List Char
  | [] => []
  | c :: t => (if c = insStart then escStart else [c]) ++ esc1 t

/-- The cursor-cleanup loop of the `parallel_race` case (lines
1474–1476): delete every state key that starts with
`order_index/<runtime_label>`.  (The surrounding cancellation protocol
is asynchronous and outside this embedding; claim C9 is settled as not
statable, with this synchronous state transform verified in
`raceCleanup_clears` below.) -/
def raceCleanup (runtimeLabel : List Char) (state : List (List Char × Value)) :
    List (List Char × Value) :=
  state.filter (fun kv => ¬ ("order_index/".toList ++ runtimeLabel).isPrefixOf kv.1)


/-! ## Supporting lemmas -/

theorem replaceAllGo_congr (pat rep : List Char) :
    ∀ (n f1 f2 : Nat) (s : List Char), s.length ≤ n → s.length ≤ f1 → s.length ≤ f2 →
      replaceAllGo pat rep f1 s = replaceAllGo pat rep f2 s := by
  intro n
  induction n with
  | zero =>
    intro f1 f2 s hn _ _
    have : s = [] := by
      cases s with
      | nil => rfl
      | cons a t => simp at hn
    subst this
    cases f1 <;> cases f2 <;> rfl
  | succ n ih =>
    intro f1 f2 s hn h1 h2
    cases s with
    | nil => cases f1 <;> cases f2 <;> rfl
    | cons c t =>
      cases f1 with
      | zero => simp at h1
      | succ a =>
        cases f2 with
        | zero => simp at h2
        | succ b =>
          simp only [replaceAllGo]
          by_cases hc : pat ≠ [] ∧ pat.isPrefixOf (c :: t)
          · rw [if_pos hc, if_pos hc]
            have hpl : 1 ≤ pat.length := by
              cases pat with
              | nil => exact absurd rfl hc.1
              | cons _ _ => simp
            have hd : ((c :: t).drop pat.length).length ≤ n := by
              simp only [List.length_drop, List.length_cons]
              simp only [List.length_cons] at hn
              omega
            have hd1 : ((c :: t).drop pat.length).length ≤ a := by
              simp only [List.length_drop, List.length_cons]
              simp only [List.length_cons] at h1
              omega
            have hd2 : ((c :: t).drop pat.length).length ≤ b := by
              simp only [List.length_drop, List.length_cons]
              simp only [List.length_cons] at h2
              omega
            rw [ih a b _ hd hd1 hd2]
          · rw [if_neg hc, if_neg hc]
            have ht : t.length ≤ n := by
              simp only [List.length_cons] at hn; omega
            have ht1 : t.length ≤ a := by
              simp only [List.length_cons] at h1; omega
            have ht2 : t.length ≤ b := by
              simp only [List.length_cons] at h2; omega
            rw [ih a b t ht ht1 ht2]

theorem replaceAll_nil (pat rep : List Char) : replaceAll pat rep [] = [] := rfl

theorem replaceAll_cons (pat rep : List Char) (c : Char) (t : List Char) :
    replaceAll pat rep (c :: t) =
      if pat ≠ [] ∧ pat.isPrefixOf (c :: t) then
        rep ++ replaceAll pat rep ((c :: t).drop pat.length)
      else c :: replaceAll pat rep t := by
  show replaceAllGo pat rep (t.length + 1) (c :: t) = _
  simp only [replaceAllGo]
  by_cases hc : pat ≠ [] ∧ pat.isPrefixOf (c :: t)
  · rw [if_pos hc, if_pos hc]
    have hpl : 1 ≤ pat.length := by
      cases pat with
      | nil => exact absurd rfl hc.1
      | cons _ _ => simp
    have := replaceAllGo_congr pat rep ((c :: t).drop pat.length).length
      t.length ((c :: t).drop pat.length).length ((c :: t).drop pat.length)
      le_rfl (by simp only [List.length_drop, List.length_cons]; omega) le_rfl
    rw [this]
    rfl
  · rw [if_neg hc, if_neg hc]
    rfl

theorem replaceAll_of_not_containsSub (pat rep : List Char) :
    ∀ s : List Char, containsSub pat s = false → replaceAll pat rep s = s := by
  intro s
  induction s with
  | nil => intro _; rfl
  | cons c t ih =>
    intro h
    simp only [containsSub, Bool.or_eq_false_iff] at h
    rw [replaceAll_cons, if_neg, ih h.2]
    intro hc
    rw [hc.2] at h
    exact absurd h.1 (by simp)

theorem not_containsSub_of_not_mem {c0 : Char} {pat : List Char} (hc : c0 ∈ pat) :
    ∀ {s : List Char}, c0 ∉ s → containsSub pat s = false := by
  intro s
  induction s with
  | nil => intro _; rfl
  | cons c t ih =>
    intro h
    simp only [containsSub, Bool.or_eq_false_iff]
    refine ⟨?_, ih (fun hm => h (List.mem_cons_of_mem c hm))⟩
    by_contra hp
    rw [Bool.not_eq_false, List.isPrefixOf_iff_prefix] at hp
    exact h (hp.subset hc)


theorem simpleTruthy_of_braceFree :
    ∀ {s : List Char}, insStart ∉ s → insStop ∉ s →
      simpleTruthy (getSimpleInsertkey s) = none := by
  intro s h1 h2
  match s with
  | [] => decide
  | [a] =>
    have ha1 : a ≠ insStart := by intro h; exact h1 (by simp [h])
    have ha2 : a ≠ insStop := by intro h; exact h2 (by simp [h])
    simp [getSimpleInsertkey, simpleKeyAux, simpleTruthy, ha1, ha2]
  | [a, b] =>
    have ha1 : a ≠ insStart := by intro h; exact h1 (by simp [h])
    have ha2 : a ≠ insStop := by intro h; exact h2 (by simp [h])
    have hb1 : b ≠ insStart := by intro h; exact h1 (by simp [h])
    have hb2 : b ≠ insStop := by intro h; exact h2 (by simp [h])
    simp [getSimpleInsertkey, simpleKeyAux, simpleTruthy, ha1, ha2, hb1, hb2]
  | a :: b :: c :: t =>
    have ha1 : a ≠ insStart := by intro h; exact h1 (by simp [h])
    have ha2 : a ≠ insStop := by intro h; exact h2 (by simp [h])
    have hb2 : b ≠ insStop := by intro h; exact h2 (by simp [h])
    have hn : (a :: b :: c :: t).length - 1 = t.length + 2 := by simp
    simp [getSimpleInsertkey, simpleKeyAux, simpleTruthy, ha1, ha2, hb2, hn]

theorem interpLoop_no_start (env : Env) (ins : List (List Char × Value)) (fuel : Nat)
    {s : List Char} (h : insStart ∉ s) : interpLoop env ins (fuel + 1) s = .ok s := by
  have hc : s.contains insStart = false := by
    simp only [List.contains, List.elem_eq_mem, decide_eq_false_iff_not]
    exact h
  simp only [interpLoop, hc, Bool.not_false, if_true]
  simp

theorem interpolate_id (env : Env) (ins : List (List Char × Value)) (fuel : Nat)
    {s : List Char} (h1 : insStart ∉ s) (h2 : insStop ∉ s)
    (h3 : containsSub sentStart s = false) (h4 : containsSub sentStop s = false) :
    interpolateInserts env ins (fuel + 1) s = .ok (.str s) := by
  have e1 : replaceAll escStart sentStart s = s :=
    replaceAll_of_not_containsSub _ _ _ (not_containsSub_of_not_mem (by decide) h1)
  have e2 : replaceAll escStop sentStop s = s :=
    replaceAll_of_not_containsSub _ _ _ (not_containsSub_of_not_mem (by decide) h2)
  have e3 : replaceAll sentStart escStart s = s :=
    replaceAll_of_not_containsSub _ _ _ h3
  have e4 : replaceAll sentStop escStop s = s :=
    replaceAll_of_not_containsSub _ _ _ h4
  simp only [interpolateInserts, e1, e2, simpleTruthy_of_braceFree h1 h2,
    interpLoop_no_start env ins fuel h1, e3, e4]

theorem replaceAll_single_cons_ne {a : Char} (rep : List Char) {c : Char} (t : List Char)
    (h : a ≠ c) : replaceAll [a] rep (c :: t) = c :: replaceAll [a] rep t := by
  rw [replaceAll_cons, if_neg]
  intro hp
  have := hp.2
  simp [List.isPrefixOf] at this
  exact h this

theorem replaceAll_single_cons_eq (a : Char) (rep : List Char) (t : List Char) :
    replaceAll [a] rep (a :: t) = rep ++ replaceAll [a] rep t := by
  rw [replaceAll_cons, if_pos ⟨by simp, by simp [List.isPrefixOf]⟩]
  simp

theorem replaceAll_pair_cons_ne1 {a : Char} (b : Char) (rep : List Char) {c : Char}
    (t : List Char) (h : a ≠ c) :
    replaceAll [a, b] rep (c :: t) = c :: replaceAll [a, b] rep t := by
  rw [replaceAll_cons, if_neg]
  intro hp
  have := hp.2
  simp [List.isPrefixOf] at this
  exact h this.1

theorem replaceAll_pair_cons_ne2 (a : Char) {b : Char} (rep : List Char) (c : Char)
    {d : Char} (t : List Char) (h : b ≠ d) :
    replaceAll [a, b] rep (c :: d :: t) = c :: replaceAll [a, b] rep (d :: t) := by
  rw [replaceAll_cons, if_neg]
  intro hp
  have := hp.2
  simp [List.isPrefixOf] at this
  exact h this.2

theorem replaceAll_pair_singleton (a b : Char) (rep : List Char) (c : Char) :
    replaceAll [a, b] rep [c] = [c] := by
  rw [replaceAll_cons, if_neg]
  · rfl
  · intro hp
    have := hp.2
    simp [List.isPrefixOf] at this
  
theorem replaceAll_pair_cons_eq (a b : Char) (rep : List Char) (t : List Char) :
    replaceAll [a, b] rep (a :: b :: t) = rep ++ replaceAll [a, b] rep t := by
  rw [replaceAll_cons, if_pos ⟨by simp, by simp [List.isPrefixOf]⟩]
  simp

theorem replaceAll_append_no_head {p0 : Char} (p' rep : List Char) :
    ∀ (blk rest : List Char), (∀ x ∈ blk, x ≠ p0) →
      replaceAll (p0 :: p') rep (blk ++ rest) = blk ++ replaceAll (p0 :: p') rep rest := by
  intro blk
  induction blk with
  | nil => intro rest _; rfl
  | cons x bt ih =>
    intro rest hx
    rw [List.cons_append, replaceAll_cons, if_neg]
    · rw [ih rest (fun y hy => hx y (List.mem_cons_of_mem x hy))]
      rfl
    · intro hp
      have := hp.2
      have hx0 := hx x (List.mem_cons_self x bt)
      cases p' with
      | nil => simp [List.isPrefixOf] at this; exact hx0 this.symm
      | cons q q' => simp [List.isPrefixOf] at this; exact hx0 this.1.symm

theorem replaceAll_start_esc1 : ∀ s : List Char, replaceAll [insStart] escStart s = esc1 s := by
  intro s
  induction s with
  | nil => rfl
  | cons c t ih =>
    by_cases hc : c = insStart
    · subst hc
      rw [replaceAll_single_cons_eq, ih]
      simp [esc1]
    · rw [replaceAll_single_cons_ne _ _ (fun h => hc h.symm), ih]
      simp [esc1, hc]


theorem replaceAll_stop_esc1 : ∀ s : List Char,
    replaceAll [insStop] escStop (esc1 s) = userInputEscapeSpec s := by
  intro s
  induction s with
  | nil => rfl
  | cons c t ih =>
    by_cases hc : c = insStart
    · subst hc
      show replaceAll [insStop] escStop (escapeCh :: insStart :: esc1 t) = _
      rw [replaceAll_single_cons_ne _ _ (by decide), replaceAll_single_cons_ne _ _ (by decide), ih]
      simp [userInputEscapeSpec, escStart]
    · by_cases hc2 : c = insStop
      · subst hc2
        show replaceAll [insStop] escStop (insStop :: esc1 t) = _
        rw [replaceAll_single_cons_eq, ih]
        simp only [userInputEscapeSpec]
        rw [if_neg (show ¬ insStop = insStart from by decide)]
        simp
      · rw [show esc1 (c :: t) = c :: esc1 t from by simp [esc1, hc],
          replaceAll_single_cons_ne _ _ (fun h => hc2 h.symm), ih]
        simp [userInputEscapeSpec, hc, hc2]

theorem escapeStr_eq_spec (s : List Char) : escapeStr s = userInputEscapeSpec s := by
  rw [escapeStr, replaceAll_start_esc1, replaceAll_stop_esc1]


theorem replaceAll_pair_cons_not_snd (a b : Char) (rep : List Char) (c : Char)
    (rest : List Char) (h : ¬ [b].isPrefixOf rest = true) :
    replaceAll [a, b] rep (c :: rest) = c :: replaceAll [a, b] rep rest := by
  rw [replaceAll_cons, if_neg]
  intro hp
  have := hp.2
  simp only [List.isPrefixOf, Bool.and_eq_true, beq_iff_eq] at this
  exact h (by simp [List.isPrefixOf, this.2])

theorem spec_not_head_start : ∀ t : List Char,
    ¬ [insStart].isPrefixOf (userInputEscapeSpec t) = true := by
  intro t
  cases t with
  | nil => decide
  | cons c u =>
    by_cases hc : c = insStart
    · subst hc
      show ¬ [insStart].isPrefixOf (escapeCh :: insStart :: userInputEscapeSpec u) = true
      simp only [List.isPrefixOf, Bool.and_eq_true, beq_iff_eq]
      intro hh
      exact absurd hh.1 (by decide)
    · by_cases hc2 : c = insStop
      · subst hc2
        show ¬ [insStart].isPrefixOf (escapeCh :: insStop :: userInputEscapeSpec u) = true
        simp only [List.isPrefixOf, Bool.and_eq_true, beq_iff_eq]
        intro hh
        exact absurd hh.1 (by decide)
      · rw [show userInputEscapeSpec (c :: u) = c :: userInputEscapeSpec u from by
          simp [userInputEscapeSpec, hc, hc2]]
        simp only [List.isPrefixOf, Bool.and_eq_true, beq_iff_eq]
        intro hh
        exact hc hh.1.symm

theorem midExpand_not_head_stop : ∀ t : List Char,
    ¬ [insStop].isPrefixOf (midExpand t) = true := by
  intro t
  cases t with
  | nil => decide
  | cons c u =>
    by_cases hc : c = insStart
    · subst hc
      show ¬ [insStop].isPrefixOf ('.' :: '„' :: 'Ä' :: '†' :: midExpand u) = true
      simp only [List.isPrefixOf, Bool.and_eq_true, beq_iff_eq]
      intro hh
      exact absurd hh.1 (by decide)
    · by_cases hc2 : c = insStop
      · subst hc2
        show ¬ [insStop].isPrefixOf (escapeCh :: insStop :: midExpand u) = true
        simp only [List.isPrefixOf, Bool.and_eq_true, beq_iff_eq]
        intro hh
        exact absurd hh.1 (by decide)
      · rw [show midExpand (c :: u) = c :: midExpand u from by
          simp [midExpand, hc, hc2]]
        simp only [List.isPrefixOf, Bool.and_eq_true, beq_iff_eq]
        intro hh
        exact hc2 hh.1.symm

theorem replaceAll_escStart_spec : ∀ s : List Char,
    replaceAll escStart sentStart (userInputEscapeSpec s) = midExpand s := by
  intro s
  induction s with
  | nil => rfl
  | cons c t ih =>
    by_cases hc : c = insStart
    · subst hc
      show replaceAll [escapeCh, insStart] sentStart
        (escapeCh :: insStart :: userInputEscapeSpec t) = _
      rw [replaceAll_pair_cons_eq]
      show sentStart ++ replaceAll escStart sentStart (userInputEscapeSpec t) = _
      rw [ih]
      simp [midExpand]
    · by_cases hc2 : c = insStop
      · subst hc2
        show replaceAll [escapeCh, insStart] sentStart
          (escapeCh :: insStop :: userInputEscapeSpec t) = _
        rw [replaceAll_pair_cons_ne2 _ _ _ _ (by decide),
          replaceAll_pair_cons_ne1 _ _ _ (by decide)]
        show escapeCh :: insStop :: replaceAll escStart sentStart (userInputEscapeSpec t) = _
        rw [ih]
        simp only [midExpand]
        rw [if_neg (show ¬ insStop = insStart from by decide)]
        rfl
      · rw [show userInputEscapeSpec (c :: t) = c :: userInputEscapeSpec t from by
          simp [userInputEscapeSpec, hc, hc2]]
        show replaceAll [escapeCh, insStart] sentStart (c :: userInputEscapeSpec t) = _
        rw [replaceAll_pair_cons_not_snd _ _ _ _ _ (spec_not_head_start t)]
        show c :: replaceAll escStart sentStart (userInputEscapeSpec t) = _
        rw [ih]
        simp [midExpand, hc, hc2]

theorem replaceAll_escStop_mid : ∀ s : List Char,
    replaceAll escStop sentStop (midExpand s) = expandSent s := by
  intro s
  induction s with
  | nil => rfl
  | cons c t ih =>
    by_cases hc : c = insStart
    · subst hc
      rw [show midExpand (insStart :: t) = sentStart ++ midExpand t from by
        simp [midExpand]]
      show replaceAll (escapeCh :: [insStop]) sentStop (sentStart ++ midExpand t) = _
      rw [replaceAll_append_no_head _ _ _ _ (by decide)]
      show sentStart ++ replaceAll escStop sentStop (midExpand t) = _
      rw [ih]
      simp [expandSent]
    · by_cases hc2 : c = insStop
      · subst hc2
        show replaceAll [escapeCh, insStop] sentStop
          (escapeCh :: insStop :: midExpand t) = _
        rw [replaceAll_pair_cons_eq]
        show sentStop ++ replaceAll escStop sentStop (midExpand t) = _
        rw [ih]
        simp only [expandSent]
        rw [if_neg (show ¬ insStop = insStart from by decide)]
        rfl
      · rw [show midExpand (c :: t) = c :: midExpand t from by
          simp [midExpand, hc, hc2]]
        show replaceAll [escapeCh, insStop] sentStop (c :: midExpand t) = _
        rw [replaceAll_pair_cons_not_snd _ _ _ _ _ (midExpand_not_head_stop t)]
        show c :: replaceAll escStop sentStop (midExpand t) = _
        rw [ih]
        simp [expandSent, hc, hc2]

theorem not_brace_in_expandSent : ∀ s : List Char,
    insStart ∉ expandSent s ∧ insStop ∉ expandSent s := by
  intro s
  induction s with
  | nil => exact ⟨by simp [expandSent], by simp [expandSent]⟩
  | cons c t ih =>
    constructor
    · intro hm
      simp only [expandSent, List.mem_append] at hm
      rcases hm with hm | hm
      · by_cases hc : c = insStart
        · rw [if_pos hc] at hm
          exact absurd hm (by decide)
        · rw [if_neg hc] at hm
          by_cases hc2 : c = insStop
          · rw [if_pos hc2] at hm
            exact absurd hm (by decide)
          · rw [if_neg hc2] at hm
            simp at hm
            exact hc hm.symm
      · exact ih.1 hm
    · intro hm
      simp only [expandSent, List.mem_append] at hm
      rcases hm with hm | hm
      · by_cases hc : c = insStart
        · rw [if_pos hc] at hm
          exact absurd hm (by decide)
        · rw [if_neg hc] at hm
          by_cases hc2 : c = insStop
          · rw [if_pos hc2] at hm
            exact absurd hm (by decide)
          · rw [if_neg hc2] at hm
            simp at hm
            exact hc2 hm.symm
      · exact ih.2 hm

theorem listIndexPyIndex_int (n : Nat) (i : Int) :
    listIndexPyIndex n (.int i) =
      if i > 0 then .ok (i - 1) else if i < 0 then .ok ((n : Int) + i) else .error .fatal := rfl

theorem pyGetList_in_range (l : List Value) (k : Int) (h0 : 0 ≤ k)
    (h : k.toNat < l.length) :
    pyGetList l k = .ok (l.getD k.toNat (.str [])) := by
  rw [pyGetList, if_pos h0, List.get?_eq_get h, List.getD_eq_getElem?_getD,
    ← List.get?_eq_getElem?, List.get?_eq_get h]
  rfl

theorem pyGetList_pos_oob (l : List Value) (k : Int) (h0 : 0 ≤ k)
    (h : l.length ≤ k.toNat) :
    pyGetList l k = .error .fatal := by
  rw [pyGetList, if_pos h0, List.get?_eq_none.mpr h]

theorem pyGetList_neg_in_range (l : List Value) (k : Int) (h0 : k < 0)
    (h1 : 0 ≤ (l.length : Int) + k) :
    pyGetList l k = .ok (l.getD ((l.length : Int) + k).toNat (.str [])) := by
  have hlt : ((l.length : Int) + k).toNat < l.length := by omega
  rw [pyGetList, if_neg (by omega), if_pos h1, List.get?_eq_get hlt,
    List.getD_eq_getElem?_getD, ← List.get?_eq_getElem?, List.get?_eq_get hlt]
  rfl

theorem pyGetList_neg_oob (l : List Value) (k : Int) (h0 : k < 0)
    (h1 : (l.length : Int) + k < 0) :
    pyGetList l k = .error .fatal := by
  rw [pyGetList, if_neg (by omega), if_neg (by omega)]

theorem listSlicePyIndex_int (n : Nat) (i : Int) (right : Bool) :
    listSlicePyIndex n (.int i) right =
      if i > 0 then .ok (some (i - 1))
      else if i < 0 then .ok (some ((n : Int) + i))
      else if right then .ok (some 0)
      else .error .fatal := rfl

theorem listSliceCase_int (pyEval : List Char → Except IErr Rat) (env : Env)
    (ins : List (List Char × Value)) (fuel : Nat) (L : List Value) (f t : Int) :
    listSliceCase pyEval env ins fuel L (.int f) (.int t) =
      (listSlicePyIndex L.length (.int f) false) >>= fun a =>
      (listSlicePyIndex L.length (.int t) true) >>= fun b =>
      match b with
      | none => .error .fatal
      | some bv => pure (.list (pySlice L a (some (bv + 1)))) := rfl

theorem firstWildcardTarget_least (vt : List Char) :
    ∀ (ps : List (List Char × List Char)) (j : Nat), j < ps.length →
      (∀ j2, j2 < j → isWildcardMatch (ps.getD j2 ([], [])).1 vt = false) →
      isWildcardMatch (ps.getD j ([], [])).1 vt = true →
      firstWildcardTarget vt ps = some (ps.getD j ([], [])).2 := by
  intro ps
  induction ps with
  | nil => intro j hj; simp at hj
  | cons p rest ih =>
    intro j hj hlt hmatch
    cases j with
    | zero =>
      simp only [List.getD_cons_zero] at hmatch
      simp only [firstWildcardTarget, hmatch, if_true, List.getD_cons_zero]
    | succ j2 =>
      have h0 : isWildcardMatch p.1 vt = false := by
        have := hlt 0 (by omega)
        simpa using this
      simp only [firstWildcardTarget, h0, Bool.false_eq_true, if_false,
        List.getD_cons_succ] at hmatch ⊢
      exact ih j2 (by simpa using hj) (fun j3 hj3 => by
        have := hlt (j3 + 1) (by omega)
        simpa using this) hmatch

theorem firstWildcardTarget_none (vt : List Char) :
    ∀ ps : List (List Char × List Char),
      (∀ kv ∈ ps, isWildcardMatch kv.1 vt = false) →
      firstWildcardTarget vt ps = none := by
  intro ps
  induction ps with
  | nil => intro _; rfl
  | cons p rest ih =>
    intro h
    have h0 := h p (List.mem_cons_self p rest)
    simp only [firstWildcardTarget, h0, Bool.false_eq_true, if_false]
    exact ih (fun kv hkv => h kv (List.mem_cons_of_mem p hkv))

theorem gotoMapCase_fault (env : Env) (ins : List (List Char × Value)) (fuel : Nat)
    (text : List Char) (maps : List (List Char × List Char))
    (ks vs : List (List Char))
    (htext : interpolateInserts env ins fuel text = .error .interp)
    (hks : interpStrList env ins fuel (maps.map (·.1)) = .ok ks)
    (hvs : interpStrList env ins fuel (maps.map (·.2)) = .ok vs) :
    gotoMapCase env ins fuel text maps =
      if "NULL".toList ∈ ks then
        (if vs.getD (ks.indexOf "NULL".toList) [] ≠ "CONTINUE".toList then
          .ok (some (vs.getD (ks.indexOf "NULL".toList) []))
        else .ok none)
      else .error .fatal := by
  rw [gotoMapCase, htext, hks, hvs]
  show (if "NULL".toList ∈ ks then
      (let target := vs.getD (ks.indexOf "NULL".toList) [];
       if target ≠ "CONTINUE".toList then pure (some target) else pure none)
    else (Except.error IErr.fatal : Except IErr (Option (List Char)))) = _
  by_cases hmem : "NULL".toList ∈ ks
  · rw [if_pos hmem, if_pos hmem]
    rfl
  · rw [if_neg hmem, if_neg hmem]

theorem gotoMapCase_match (env : Env) (ins : List (List Char × Value)) (fuel : Nat)
    (text : List Char) (maps : List (List Char × List Char))
    (ks vs : List (List Char)) (v : Value)
    (htext : interpolateInserts env ins fuel text = .ok v)
    (hks : interpStrList env ins fuel (maps.map (·.1)) = .ok ks)
    (hvs : interpStrList env ins fuel (maps.map (·.2)) = .ok vs) :
    gotoMapCase env ins fuel text maps =
      match firstWildcardTarget (pyStr v) (ks.zip vs) with
      | none => .error .fatal
      | some target =>
        if target ≠ "CONTINUE".toList then .ok (some target) else .ok none := by
  rw [gotoMapCase, htext, hks, hvs]
  show (match firstWildcardTarget (pyStr v) (ks.zip vs) with
    | none => (Except.error IErr.fatal : Except IErr (Option (List Char)))
    | some target =>
      if target ≠ "CONTINUE".toList then pure (some target) else pure none) = _
  match firstWildcardTarget (pyStr v) (ks.zip vs) with
  | none => rfl
  | some target => rfl

/-- The cleanup loop of `parallel_race` removes every state key owned by
the block: no surviving entry's key starts with
`order_index/<runtime_label>`. -/
theorem raceCleanup_clears (runtimeLabel : List Char)
    (state : List (List Char × Value)) :
    ∀ kv ∈ raceCleanup runtimeLabel state,
      ¬ ("order_index/".toList ++ runtimeLabel).isPrefixOf kv.1 = true := by
  intro kv hkv
  have := List.of_mem_filter hkv
  simpa using this


/-! ## Claim theorems -/

/-- C1.  The spec's filter-completeness law fails on the code: for
start `(`, stop `)`, enumeration off and input `S = "(x)(y)"`, feeding
the six single-character chunks emits `"xy"`, while feeding `S` as one
chunk emits `"x)"` — the single call consumes only the first start
delimiter and the safe-prefix scan, still running against the already
consumed `start` string instead of the next-awaited `stop`, emits the
first stop delimiter as text and strands `"(y)"` in the buffer.  The two
concatenations differ, contradicting the claimed equality. -/
theorem c1_filter_chunking_divergence :
    (feedChunks "(".toList ")".toList false initFState
      ("(x)(y)".toList.map (fun c => [c]))).emitted = "xy".toList ∧
    (feedChunks "(".toList ")".toList false initFState ["(x)(y)".toList]).emitted
      = "x)".toList ∧
    (feedChunks "(".toList ")".toList false initFState
      ("(x)(y)".toList.map (fun c => [c]))).emitted ≠
    (feedChunks "(".toList ")".toList false initFState ["(x)(y)".toList]).emitted := by
  refine ⟨by decide, by decide, by decide⟩

/-- C8.  Scenario S1: streaming
`"<output>1</output>\n\n\t<output>and 2</output>"` in successive 3-character
chunks through the forward filter with start `<output>`, stop
`</output>` and enumeration on emits exactly `"1. 1\n\n2. and 2"` and
leaves `outputs = ["1", "and 2"]`. -/
theorem c8_filter_extraction_scenario :
    (feedChunks "<output>".toList "</output>".toList true initFState
      (chunksOfSucc 2 "<output>1</output>\n\n\t<output>and 2</output>".toList)).emitted
      = "1. 1\n\n2. and 2".toList ∧
    (feedChunks "<output>".toList "</output>".toList true initFState
      (chunksOfSucc 2 "<output>1</output>\n\n\t<output>and 2</output>".toList)).outputs
      = ["1".toList, "and 2".toList] := by
  refine ⟨by decide, by decide⟩

/-- C2 counterexample.  Interpolating `"Hello {name}\{x\}!"` under
`{"name": "Ada"}` does **not** return `"Hello Ada{x}!"`: the engine
restores the escape sentinels to their escaped two-character form
`\{` / `\}`, it does not strip the backslashes. -/
theorem c2_escape_counterexample :
    interpolateInserts env0 [("name".toList, .str "Ada".toList)] 10
      "Hello \x7bname\x7d\\\x7bx\\\x7d!".toList
      ≠ .ok (.str "Hello Ada\x7bx\x7d!".toList) := by
  decide

/-- C2 amended.  Interpolating `"Hello {name}\{x\}!"` under
`{"name": "Ada"}` substitutes the placeholder and keeps the escape
sequences verbatim, returning `"Hello Ada\{x\}!"`. -/
theorem c2_interpolation_with_escapes_amended :
    interpolateInserts env0 [("name".toList, .str "Ada".toList)] 10
      "Hello \x7bname\x7d\\\x7bx\\\x7d!".toList
      = .ok (.str "Hello Ada\\\x7bx\\\x7d!".toList) := by
  decide

/-- C3 counterexample.  The escape-then-interpolate round trip is not
the identity for every brace-free string: the four-character string
`".„Ä†"` (which contains no `{`, no `}`, hence no interpolation use, and
is left unchanged by `recursive_escape`) collides with the engine's
internal escape sentinel and interpolates to `"\{"`. -/
theorem c3_roundtrip_counterexample :
    recursiveEscape (.str ['.', '„', 'Ä', '†']) = .str ['.', '„', 'Ä', '†'] ∧
    interpolateInserts env0 [] 10 ['.', '„', 'Ä', '†'] = .ok (.str ['\\', '\x7b']) ∧
    Value.str ['\\', '\x7b'] ≠ .str ['.', '„', 'Ä', '†'] := by
  refine ⟨by decide, by decide, by decide⟩

/-- C4.  The claim (the spec's arithmetic-soundness law) is right about
the intent — `math_safe_eval` contains the rewrite `s.replace('^','**')`
— but the code is wrong: `^` is missing from `math_legal_terminals`, and
both the charset assertion of `math_safe_eval` and the final
illegal-character assertion of `eval_math` run **before** any rewrite,
so every legal expression containing `^`, inside or outside
parentheses, fails with an assertion error instead of evaluating: for
any behaviour of Python's `eval`, `eval_math` on `"2^3"` and on
`"(2^3)"` raises instead of returning `8`. -/
theorem c4_caret_exponentiation_fails :
    ∀ pyEval : List Char → Except IErr Rat,
      evalMath pyEval env0 [] 10 "2^3".toList = .error .fatal ∧
      evalMath pyEval env0 [] 10 "(2^3)".toList = .error .fatal :=
  fun _ => ⟨rfl, rfl⟩

/-- C5 counterexample.  For the three-element list `["a","b","c"]`,
`list_index` with index `-4` (out of range by the claim, `|i| > n`) does
**not** raise: `py_index` maps it to `3 + (-4) = -1` and Python's
negative indexing wraps a second time, binding `"c"`. -/
theorem c5_negative_wraparound_counterexample :
    listIndexCase [.str "a".toList, .str "b".toList, .str "c".toList] (.int (-4))
      = .ok (.str "c".toList) := by
  decide

/-- C6 counterexample.  For the two-element list `["a","b"]`,
`list_slice` with `from_index = 1` and `to_index = 0` does **not** bind
the empty list: the right bound `0` is rewritten to Python index `0`,
the subsequent `+ 1` makes the slice `l[0:1]`, and the single-element
list `["a"]` is bound. -/
theorem c6_right_bound_zero_counterexample :
    listSliceCase dummyEval env0 [] 1 [.str "a".toList, .str "b".toList]
      (.int 1) (.int 0) = .ok (.list [.str "a".toList]) := rfl



/-- C3 amended.  Escaping then interpolating is the identity on a string
that contains no interpolation delimiter `{` or `}` **and** no
occurrence of the engine's internal sentinel tokens `.„Ä†` / `„Ä†.`:
`recursive_escape` leaves such a string unchanged and
`interpolate_inserts` returns it unchanged, for every inserts mapping,
clock environment and fuel.  (The sentinel exclusion is forced by the
counterexample: the code's sentinel trick mangles strings that collide
with the sentinels, and strings containing literal braces come back in
escaped form rather than unchanged.) -/
theorem c3_roundtrip_amended (env : Env) (ins : List (List Char × Value)) (fuel : Nat)
    (s : List Char) (h1 : insStart ∉ s) (h2 : insStop ∉ s)
    (h3 : containsSub sentStart s = false) (h4 : containsSub sentStop s = false) :
    recursiveEscape (.str s) = .str s ∧
    interpolateInserts env ins (fuel + 1) s = .ok (.str s) := by
  constructor
  · show Value.str (escapeStr s) = Value.str s
    have e1 : replaceAll [insStart] escStart s = s :=
      replaceAll_of_not_containsSub _ _ _ (not_containsSub_of_not_mem (by decide) h1)
    have e2 : replaceAll [insStop] escStop s = s :=
      replaceAll_of_not_containsSub _ _ _ (not_containsSub_of_not_mem (by decide) h2)
    rw [escapeStr, e1, e2]
  · exact interpolate_id env ins fuel h1 h2 h3 h4

theorem c3_roundtrip_amended_witness :
    recursiveEscape (.str "abc".toList) = .str "abc".toList ∧
    interpolateInserts { clockHM := [], clockHMS := [] } [] 10 "abc".toList
      = .ok (.str "abc".toList) :=
  c3_roundtrip_amended { clockHM := [], clockHMS := [] } [] 9 "abc".toList
    (by decide) (by decide) (by decide) (by decide)

/-- C5 amended.  For a list of length `n`, `list_index i` returns the
i-th element when `1 ≤ i ≤ n`, raises for `i = 0` and for `i > n`, and
for negative `i` counts from the tail — `-n ≤ i ≤ -1` yields element
`n + i + 1` (so `-1` is the last) — but the claimed error for negative
out-of-range indices only occurs below `-2n`: for `-2n ≤ i < -n` the
Python indexing wraps a second time and returns element `2n + i + 1`. -/
theorem c5_list_index_amended (L : List Value) (i : Int) :
    (1 ≤ i → i ≤ L.length → listIndexCase L (.int i)
      = .ok (L.getD (i - 1).toNat (.str []))) ∧
    (i = 0 → listIndexCase L (.int i) = .error .fatal) ∧
    ((L.length : Int) < i → listIndexCase L (.int i) = .error .fatal) ∧
    (-(L.length : Int) ≤ i → i ≤ -1 → listIndexCase L (.int i)
      = .ok (L.getD ((L.length : Int) + i).toNat (.str []))) ∧
    (-(2 * L.length : Int) ≤ i → i < -(L.length : Int) → listIndexCase L (.int i)
      = .ok (L.getD ((2 * L.length : Int) + i).toNat (.str []))) ∧
    (i < -(2 * L.length : Int) → listIndexCase L (.int i) = .error .fatal) := by
  have hcase : ∀ k : Int, listIndexPyIndex L.length (.int i) = .ok k →
      listIndexCase L (.int i) = pyGetList L k := by
    intro k hk
    show (listIndexPyIndex L.length (.int i)) >>= (fun k => pyGetList L k) = _
    rw [hk]
    rfl
  have hfail : listIndexPyIndex L.length (.int i) = .error .fatal →
      listIndexCase L (.int i) = .error .fatal := by
    intro hk
    show (listIndexPyIndex L.length (.int i)) >>= (fun k => pyGetList L k) = _
    rw [hk]
    rfl
  refine ⟨?_, ?_, ?_, ?_, ?_, ?_⟩
  · intro h1 h2
    rw [hcase (i - 1) (by rw [listIndexPyIndex_int, if_pos (by omega)])]
    have := pyGetList_in_range L (i - 1) (by omega) (by omega)
    exact this
  · intro h
    exact hfail (by rw [listIndexPyIndex_int, if_neg (by omega), if_neg (by omega)])
  · intro h
    rw [hcase (i - 1) (by rw [listIndexPyIndex_int, if_pos (by omega)])]
    exact pyGetList_pos_oob L (i - 1) (by omega) (by omega)
  · intro h1 h2
    rw [hcase ((L.length : Int) + i) (by rw [listIndexPyIndex_int, if_neg (by omega),
      if_pos (by omega)])]
    exact pyGetList_in_range L ((L.length : Int) + i) (by omega) (by omega)
  · intro h1 h2
    rw [hcase ((L.length : Int) + i) (by rw [listIndexPyIndex_int, if_neg (by omega),
      if_pos (by omega)])]
    have := pyGetList_neg_in_range L ((L.length : Int) + i) (by omega) (by omega)
    rw [this]
    congr 2
    omega
  · intro h
    rw [hcase ((L.length : Int) + i) (by rw [listIndexPyIndex_int, if_neg (by omega),
      if_pos (by omega)])]
    exact pyGetList_neg_oob L ((L.length : Int) + i) (by omega) (by omega)

/-- C5 amended witness: the six cases at the concrete list
`["a","b","c"]`. -/
theorem c5_list_index_amended_witness :
    listIndexCase [.str "a".toList, .str "b".toList, .str "c".toList] (.int 2)
      = .ok (.str "b".toList) ∧
    listIndexCase [.str "a".toList, .str "b".toList, .str "c".toList] (.int 0)
      = .error .fatal ∧
    listIndexCase [.str "a".toList, .str "b".toList, .str "c".toList] (.int 4)
      = .error .fatal ∧
    listIndexCase [.str "a".toList, .str "b".toList, .str "c".toList] (.int (-1))
      = .ok (.str "c".toList) ∧
    listIndexCase [.str "a".toList, .str "b".toList, .str "c".toList] (.int (-5))
      = .ok (.str "b".toList) ∧
    listIndexCase [.str "a".toList, .str "b".toList, .str "c".toList] (.int (-7))
      = .error .fatal := by
  refine ⟨?_, ?_, ?_, ?_, ?_, ?_⟩
  · exact ((c5_list_index_amended _ 2).1 (by decide) (by decide)).trans (by decide)
  · exact (c5_list_index_amended _ 0).2.1 (by decide)
  · exact (c5_list_index_amended _ 4).2.2.1 (by decide)
  · exact ((c5_list_index_amended _ (-1)).2.2.2.1 (by decide) (by decide)).trans (by decide)
  · exact ((c5_list_index_amended _ (-5)).2.2.2.2.1 (by decide) (by decide)).trans (by decide)
  · exact (c5_list_index_amended _ (-7)).2.2.2.2.2 (by decide)

/-- C6 amended.  For `list_slice` over any list: a left bound
(`from_index`) of `0` raises; for `1 ≤ from ≤ to ≤ n` the inclusive
1-based sub-list is bound; but a right bound (`to_index`) of `0` is
**not** the empty prefix — it is rewritten to Python index `0` and the
`+ 1` of the slice upper bound makes it index `1`, so with
`from_index = 1` the single-element prefix is bound, and only with
`from_index ≥ 2` is the result empty. -/
theorem c6_list_slice_amended (pyEval : List Char → Except IErr Rat) (env : Env)
    (ins : List (List Char × Value)) (fuel : Nat) (L : List Value) (f t : Int) :
    (listSliceCase pyEval env ins fuel L (.int 0) (.int t) = .error .fatal) ∧
    (1 ≤ f → f ≤ t → t ≤ L.length →
      listSliceCase pyEval env ins fuel L (.int f) (.int t)
        = .ok (.list ((L.take t.toNat).drop (f.toNat - 1)))) ∧
    (listSliceCase pyEval env ins fuel L (.int 1) (.int 0) = .ok (.list (L.take 1))) ∧
    (2 ≤ f → listSliceCase pyEval env ins fuel L (.int f) (.int 0) = .ok (.list [])) := by
  refine ⟨?_, ?_, ?_, ?_⟩
  · rw [listSliceCase_int, listSlicePyIndex_int, if_neg (by omega), if_neg (by omega),
      if_neg (by simp)]
    rfl
  · intro h1 h2 h3
    rw [listSliceCase_int, listSlicePyIndex_int, if_pos (by omega),
      listSlicePyIndex_int]
    by_cases ht : t > 0
    · rw [if_pos ht]
      show Except.ok (Value.list (pySlice L (some (f - 1)) (some (t - 1 + 1)))) = _
      have hb : t - 1 + 1 = t := by omega
      rw [hb]
      have hs : pySlice L (some (f - 1)) (some t)
          = (L.take t.toNat).drop (f.toNat - 1) := by
        rw [pySlice]
        simp only [if_neg (show ¬ (f - 1 : Int) < 0 by omega),
          if_neg (show ¬ (t : Int) < 0 by omega)]
        have e1 : min (f - 1).toNat L.length = f.toNat - 1 := by omega
        have e2 : min t.toNat L.length = t.toNat := by omega
        rw [e1, e2]
      rw [hs]
    · -- t = 0 is impossible: 1 ≤ f ≤ t forces t ≥ 1
      omega
  · rw [listSliceCase_int, listSlicePyIndex_int, if_pos (by omega),
      listSlicePyIndex_int, if_neg (by omega), if_neg (by omega), if_pos (by simp)]
    show Except.ok (Value.list (pySlice L (some (1 - 1)) (some (0 + 1)))) = _
    have hs : pySlice L (some (1 - 1)) (some (0 + 1)) = L.take 1 := by
      rw [pySlice]
      simp only [if_neg (show ¬ (1 - 1 : Int) < 0 by omega),
        if_neg (show ¬ (0 + 1 : Int) < 0 by omega)]
      have e1 : ((1 - 1 : Int)).toNat ⊓ L.length = 0 := by omega
      have e2 : ((0 + 1 : Int)).toNat ⊓ L.length ⊓ L.length = 1 ⊓ L.length := by omega
      rw [e1, List.drop_zero, List.take_eq_take.mpr]
      rw [e2]
    rw [hs]
  · intro h2
    rw [listSliceCase_int, listSlicePyIndex_int, if_pos (by omega),
      listSlicePyIndex_int, if_neg (by omega), if_neg (by omega), if_pos (by simp)]
    show Except.ok (Value.list (pySlice L (some (f - 1)) (some (0 + 1)))) = _
    have hs : pySlice L (some (f - 1)) (some (0 + 1)) = [] := by
      rw [pySlice]
      simp only [if_neg (show ¬ (f - 1 : Int) < 0 by omega),
        if_neg (show ¬ (0 + 1 : Int) < 0 by omega)]
      apply List.drop_eq_nil_of_le
      simp only [List.length_take]
      omega
    rw [hs]

/-- C6 amended witness: the four cases at concrete lists. -/
theorem c6_list_slice_amended_witness :
    listSliceCase dummyEval env0 [] 1 [.str "a".toList, .str "b".toList]
      (.int 0) (.int 2) = .error .fatal ∧
    listSliceCase dummyEval env0 [] 1 [.str "a".toList, .str "b".toList, .str "c".toList]
      (.int 2) (.int 3) = .ok (.list [.str "b".toList, .str "c".toList]) ∧
    listSliceCase dummyEval env0 [] 1 [.str "a".toList, .str "b".toList]
      (.int 1) (.int 0) = .ok (.list [.str "a".toList]) ∧
    listSliceCase dummyEval env0 [] 1 [.str "a".toList, .str "b".toList]
      (.int 2) (.int 0) = .ok (.list []) := by
  refine ⟨?_, ?_, ?_, ?_⟩
  · exact (c6_list_slice_amended dummyEval env0 [] 1 _ 0 2).1
  · exact ((c6_list_slice_amended dummyEval env0 [] 1 _ 2 3).2.1
      (by decide) (by decide) (by decide)).trans (by decide)
  · exact ((c6_list_slice_amended dummyEval env0 [] 1 _ 1 0).2.2.1).trans (by decide)
  · exact (c6_list_slice_amended dummyEval env0 [] 1 _ 2 0).2.2.2 (by decide)

/-- C7.  The `goto_map` case matches the interpolated text against each
entry's sole key in list order and redirects to the first matching
key's value; when interpolating `text` raises an interpolation fault it
redirects to the value of the literal `"NULL"` key, and the fault case
is fatal exactly when no `"NULL"` key exists.  Conjuncts: the concrete
S4 scenario (`text = "{missing}"`, entries
`[{"NULL": "fallback"}, {"*": "other"}]`, no insert named `missing`,
redirects to `fallback`); the general fault case with and without a
`NULL` key; the general success case redirecting at the least matching
index; and the fatal no-match success case. -/
theorem c7_goto_map_null_fallback :
    (gotoMapCase env0 [] 10 "\x7bmissing\x7d".toList
      [("NULL".toList, "fallback".toList), ("*".toList, "other".toList)]
      = .ok (some "fallback".toList)) ∧
    (∀ (env : Env) (ins : List (List Char × Value)) (fuel : Nat)
      (text : List Char) (maps : List (List Char × List Char))
      (ks vs : List (List Char)),
      interpolateInserts env ins fuel text = .error .interp →
      interpStrList env ins fuel (maps.map (·.1)) = .ok ks →
      interpStrList env ins fuel (maps.map (·.2)) = .ok vs →
      ("NULL".toList ∈ ks →
        gotoMapCase env ins fuel text maps =
          if vs.getD (ks.indexOf "NULL".toList) [] ≠ "CONTINUE".toList then
            .ok (some (vs.getD (ks.indexOf "NULL".toList) []))
          else .ok none) ∧
      ("NULL".toList ∉ ks → gotoMapCase env ins fuel text maps = .error .fatal)) ∧
    (∀ (env : Env) (ins : List (List Char × Value)) (fuel : Nat)
      (text : List Char) (maps : List (List Char × List Char))
      (ks vs : List (List Char)) (v : Value) (j : Nat),
      interpolateInserts env ins fuel text = .ok v →
      interpStrList env ins fuel (maps.map (·.1)) = .ok ks →
      interpStrList env ins fuel (maps.map (·.2)) = .ok vs →
      j < (ks.zip vs).length →
      (∀ j2, j2 < j → isWildcardMatch ((ks.zip vs).getD j2 ([], [])).1 (pyStr v) = false) →
      isWildcardMatch ((ks.zip vs).getD j ([], [])).1 (pyStr v) = true →
      gotoMapCase env ins fuel text maps =
        if ((ks.zip vs).getD j ([], [])).2 ≠ "CONTINUE".toList then
          .ok (some ((ks.zip vs).getD j ([], [])).2)
        else .ok none) ∧
    (∀ (env : Env) (ins : List (List Char × Value)) (fuel : Nat)
      (text : List Char) (maps : List (List Char × List Char))
      (ks vs : List (List Char)) (v : Value),
      interpolateInserts env ins fuel text = .ok v →
      interpStrList env ins fuel (maps.map (·.1)) = .ok ks →
      interpStrList env ins fuel (maps.map (·.2)) = .ok vs →
      (∀ kv ∈ ks.zip vs, isWildcardMatch kv.1 (pyStr v) = false) →
      gotoMapCase env ins fuel text maps = .error .fatal) := by
  refine ⟨by decide, ?_, ?_, ?_⟩
  · intro env ins fuel text maps ks vs htext hks hvs
    constructor
    · intro hmem
      rw [gotoMapCase_fault env ins fuel text maps ks vs htext hks hvs, if_pos hmem]
    · intro hmem
      rw [gotoMapCase_fault env ins fuel text maps ks vs htext hks hvs, if_neg hmem]
  · intro env ins fuel text maps ks vs v j htext hks hvs hj hlt hmatch
    rw [gotoMapCase_match env ins fuel text maps ks vs v htext hks hvs,
      firstWildcardTarget_least (pyStr v) (ks.zip vs) j hj hlt hmatch]
  · intro env ins fuel text maps ks vs v htext hks hvs hall
    rw [gotoMapCase_match env ins fuel text maps ks vs v htext hks hvs,
      firstWildcardTarget_none (pyStr v) (ks.zip vs) hall]

/-- C7 witness: the general conjuncts applied at concrete programs — the
S4 fault case with and without `NULL`, and a first-match redirect where
the second of three entries is the least match. -/
theorem c7_goto_map_null_fallback_witness :
    gotoMapCase env0 [] 10 "\x7bmissing\x7d".toList
      [("NULL".toList, "fallback".toList), ("*".toList, "other".toList)]
      = .ok (some "fallback".toList) ∧
    gotoMapCase env0 [] 10 "\x7bmissing\x7d".toList
      [("*".toList, "other".toList)] = .error .fatal ∧
    gotoMapCase env0 [("x".toList, .str "hi".toList)] 10 "\x7bx\x7d".toList
      [("nope".toList, "l1".toList), ("h*".toList, "l2".toList), ("*".toList, "l3".toList)]
      = .ok (some "l2".toList) := by
  refine ⟨?_, ?_, ?_⟩
  · have h := (c7_goto_map_null_fallback.2.1 env0 [] 10 "\x7bmissing\x7d".toList
      [("NULL".toList, "fallback".toList), ("*".toList, "other".toList)]
      ["NULL".toList, "*".toList] ["fallback".toList, "other".toList]
      (by decide) (by decide) (by decide)).1 (by decide)
    rw [h]
    decide
  · exact (c7_goto_map_null_fallback.2.1 env0 [] 10 "\x7bmissing\x7d".toList
      [("*".toList, "other".toList)] ["*".toList] ["other".toList]
      (by decide) (by decide) (by decide)).2 (by decide)
  · have h := c7_goto_map_null_fallback.2.2.1 env0 [("x".toList, .str "hi".toList)] 10
      "\x7bx\x7d".toList
      [("nope".toList, "l1".toList), ("h*".toList, "l2".toList), ("*".toList, "l3".toList)]
      ["nope".toList, "h*".toList, "*".toList] ["l1".toList, "l2".toList, "l3".toList]
      (.str "hi".toList) 1
      (by decide) (by decide) (by decide) (by decide) (by decide) (by decide)
    rw [h]
    decide

/-- C10.  The `user_input` case binds to `output_name` exactly the typed
string with every `{` replaced by `\{` and every `}` replaced by `\}`
(first conjunct), and the bound value can never trigger a key lookup
when later interpolated: for **every** inserts mapping, clock
environment and fuel, interpolating it succeeds and returns a value
computed from the typed string alone, independent of the inserts
(second conjunct). -/
theorem c10_user_input_escaping :
    ∀ s : List Char,
      userInputEscape s = userInputEscapeSpec s ∧
      ∀ (env : Env) (ins : List (List Char × Value)) (fuel : Nat),
        interpolateInserts env ins (fuel + 1) (userInputEscape s)
          = .ok (.str (restoreSent (expandSent s))) := by
  intro s
  have hesc : userInputEscape s = userInputEscapeSpec s := escapeStr_eq_spec s
  refine ⟨hesc, ?_⟩
  intro env ins fuel
  have hcontent : replaceAll escStop sentStop (replaceAll escStart sentStart (userInputEscape s))
      = expandSent s := by
    rw [hesc, replaceAll_escStart_spec, replaceAll_escStop_mid]
  have hnb := not_brace_in_expandSent s
  simp only [interpolateInserts, hcontent, simpleTruthy_of_braceFree hnb.1 hnb.2,
    interpLoop_no_start env ins fuel hnb.1]
  rfl

end InterpEngine
